import Mathlib

set_option maxRecDepth 8000

/-!
# Verification development for the Mint-Asset circuit witness and the Ephemeral key pair

Shallow embedding of `ironfish-zkp/src/circuits/mint_asset.rs` and
`ironfish-rust/src/keys/ephemeral.rs`.

The external collaborators (the Jubjub/BLS12-381 arithmetic, the point codecs of
the external key types, and the in-circuit gadget library) are not part of the
repository; they are modelled from the specification's contracts (§4.4 of the
spec) as explicit parameters carrying exactly the properties the spec assigns
to them.
-/

namespace Ironfish

/-- Modulus of the BLS12-381 scalar field, which is the base field `Fq` of the
Jubjub curve (`blstrs::Scalar`). -/
def qBLS : ℕ := 52435875175126190479447740508185965837690552500527637822603658699938581184513

/-- Modulus of the Jubjub scalar field `jubjub::Fr` (the order of the
prime-order subgroup of Jubjub). -/
def rJUB : ℕ := 6554484396890773809930967563523245729705921265872317281365359162392183254199

instance : NeZero qBLS := ⟨by decide⟩

instance : NeZero rJUB := ⟨by decide⟩

/-- The base field of Jubjub (= the scalar field of BLS12-381). -/
abbrev Fq := ZMod qBLS

/-- The Jubjub scalar field `jubjub::Fr`. -/
abbrev Fr := ZMod rJUB

/-- `jubjub::Fr::CAPACITY`: the number of bits `n` such that every `n`-bit
integer is below the modulus (`rJUB` has 252 bits, so `CAPACITY = 251`). -/
def CAPACITY : ℕ := 251

/-- `jubjub::Fr::NUM_BITS`: the bit length of the modulus `rJUB`. -/
def frNumBits : ℕ := 252

/-- A byte. -/
abbrev Byte := Fin 256

/-- Little-endian byte encoding of a natural number in a fixed width. -/
def natToBytesLE : ℕ → ℕ → List Byte
  | 0, _ => []
  | k + 1, n => (⟨n % 256, Nat.mod_lt _ (by norm_num)⟩ : Byte) :: natToBytesLE k (n / 256)

/-- Value of a little-endian byte string. -/
def bytesToNatLE : List Byte → ℕ
  | [] => 0
  | b :: bs => b.val + 256 * bytesToNatLE bs

@[simp]
theorem natToBytesLE_length (k n : ℕ) : (natToBytesLE k n).length = k := by
  induction k generalizing n with
  | zero => simp [natToBytesLE]
  | succ k ih => simp [natToBytesLE, ih]

theorem bytesToNatLE_natToBytesLE (k n : ℕ) (h : n < 256 ^ k) :
    bytesToNatLE (natToBytesLE k n) = n := by
  induction k generalizing n with
  | zero => simp [natToBytesLE, bytesToNatLE]; omega
  | succ k ih =>
    have hdiv : n / 256 < 256 ^ k := by
      rw [Nat.div_lt_iff_lt_mul (by norm_num)]
      calc n < 256 ^ (k + 1) := h
        _ = 256 ^ k * 256 := by ring
    simp only [natToBytesLE, bytesToNatLE, ih _ hdiv]
    omega

theorem bytesToNatLE_lt (bs : List Byte) : bytesToNatLE bs < 256 ^ bs.length := by
  induction bs with
  | nil => simp [bytesToNatLE]
  | cons b bs ih =>
    simp only [bytesToNatLE, List.length_cons, pow_succ]
    have hb : b.val < 256 := b.isLt
    calc b.val + 256 * bytesToNatLE bs < 256 + 256 * bytesToNatLE bs := by omega
      _ ≤ 256 * (bytesToNatLE bs + 1) := by ring_nf; omega
      _ ≤ 256 * 256 ^ bs.length := by
          have := ih
          exact Nat.mul_le_mul_left 256 (by omega)
      _ = 256 ^ bs.length * 256 := by ring

/-- Little-endian bit decomposition of a natural number in a fixed width. -/
def natToBitsLE : ℕ → ℕ → List Bool
  | 0, _ => []
  | k + 1, n => decide (n % 2 = 1) :: natToBitsLE k (n / 2)

/-- Value of a little-endian bit string. -/
def bitsToNatLE : List Bool → ℕ
  | [] => 0
  | b :: bs => (if b then 1 else 0) + 2 * bitsToNatLE bs

@[simp]
theorem natToBitsLE_length (k n : ℕ) : (natToBitsLE k n).length = k := by
  induction k generalizing n with
  | zero => simp [natToBitsLE]
  | succ k ih => simp [natToBitsLE, ih]

theorem bitsToNatLE_natToBitsLE (k n : ℕ) (h : n < 2 ^ k) :
    bitsToNatLE (natToBitsLE k n) = n := by
  induction k generalizing n with
  | zero => simp [natToBitsLE, bitsToNatLE]; omega
  | succ k ih =>
    have hdiv : n / 2 < 2 ^ k := by
      rw [Nat.div_lt_iff_lt_mul (by norm_num)]
      calc n < 2 ^ (k + 1) := h
        _ = 2 ^ k * 2 := by ring
    simp only [natToBitsLE, bitsToNatLE, ih _ hdiv]
    rcases Nat.mod_two_eq_zero_or_one n with h2 | h2 <;> simp [h2] <;> omega

theorem bitsToNatLE_lt (bs : List Bool) : bitsToNatLE bs < 2 ^ bs.length := by
  induction bs with
  | nil => simp [bitsToNatLE]
  | cons b bs ih =>
    simp only [bitsToNatLE, List.length_cons, pow_succ]
    rcases b <;> simp <;> omega

/-- `jubjub::Fr::to_bytes`: the canonical 32-byte little-endian encoding. -/
def frToBytes (x : Fr) : List Byte := natToBytesLE 32 x.val

/-- `jubjub::Fr::from_bytes`: decodes 32 little-endian bytes, returning `none`
when the value is not canonical (not below the modulus). -/
def frFromBytes (bs : List Byte) : Option Fr :=
  if bs.length = 32 ∧ bytesToNatLE bs < rJUB then some ((bytesToNatLE bs : ℕ) : Fr) else none

@[simp]
theorem frToBytes_length (x : Fr) : (frToBytes x).length = 32 := by
  simp [frToBytes]

theorem frFromBytes_frToBytes (x : Fr) : frFromBytes (frToBytes x) = some x := by
  have hlt : x.val < rJUB := ZMod.val_lt x
  have h256 : x.val < 256 ^ 32 := lt_trans hlt (by norm_num [rJUB])
  unfold frFromBytes frToBytes
  rw [bytesToNatLE_natToBytesLE 32 x.val h256]
  rw [if_pos ⟨natToBytesLE_length _ _, hlt⟩]
  exact congrArg some (ZMod.natCast_rightInverse x)

/-- Canonical 32-byte little-endian encoding of a base-field element. -/
def fqToBytes (x : Fq) : List Byte := natToBytesLE 32 x.val

/-- Unchecked little-endian decoding of 32 bytes into the base field (the value
is reduced modulo `qBLS`); total, never fails. -/
def fqFromBytesUnchecked (bs : List Byte) : Fq := ((bytesToNatLE bs : ℕ) : Fq)

@[simp]
theorem fqToBytes_length (x : Fq) : (fqToBytes x).length = 32 := by
  simp [fqToBytes]

theorem fqFromBytesUnchecked_fqToBytes (x : Fq) : fqFromBytesUnchecked (fqToBytes x) = x := by
  have hlt : x.val < qBLS := ZMod.val_lt x
  have h256 : x.val < 256 ^ 32 := lt_trans hlt (by norm_num [qBLS])
  unfold fqFromBytesUnchecked fqToBytes
  rw [bytesToNatLE_natToBytesLE 32 x.val h256]
  exact ZMod.natCast_rightInverse x

/-! ## Witness serialization (`MintAsset::write` / `MintAsset::read`) -/

/-- Modelled from the spec: the external compressed-point codec of component A
(the 32-byte encoding of a subgroup point used inside the proof-generation
key's byte encoding).  The spec fixes only its contract: 32-byte output,
decode is a left inverse of encode, malformed bytes fail to decode. -/
structure PointCodec (P : Type) where
  enc : P → List Byte
  dec : List Byte → Option P
  enc_length : ∀ p, (enc p).length = 32
  dec_enc : ∀ p, dec (enc p) = some p

/-- `zcash_primitives::sapling::ProofGenerationKey`, parameterized by the
subgroup-point type: an authorization point `ak` and the nullifier secret
scalar `nsk`. -/
structure ProofGenerationKey (P : Type) where
  ak : P
  nsk : Fr
  deriving DecidableEq

/-- The Mint-Asset witness (`MintAsset` in `mint_asset.rs`): two optional
fields. -/
structure MintAsset (P : Type) where
  proof_generation_key : Option (ProofGenerationKey P)
  public_key_randomness : Option Fr
  deriving DecidableEq

/-- Outcome of `MintAsset::read`: success, an `io::Result` error returned to
the caller, or a panic (`unwrap` on a failed decode aborts the process). -/
inductive ReadResult (α : Type) where
  | ok : α → ReadResult α
  | ioError : ReadResult α
  | panic : ReadResult α
  deriving DecidableEq

/-- `reader.read_u8()`: one byte off the front, or a short-read failure. -/
def readU8 (s : List Byte) : Option (Byte × List Byte) :=
  match s with
  | [] => none
  | b :: rest => some (b, rest)

/-- `reader.read_exact` into an `n`-byte buffer: the next `n` bytes, or a
short-read failure. -/
def readExact (n : ℕ) (s : List Byte) : Option (List Byte × List Byte) :=
  if n ≤ s.length then some (s.take n, s.drop n) else none

/-- `ProofGenerationKey::to_bytes_le` (external type; byte layout from the
spec's wire format): compressed `ak` (32 bytes) followed by canonical `nsk`
(32 bytes). -/
def ProofGenerationKey.to_bytes_le {P : Type} (codec : PointCodec P)
    (k : ProofGenerationKey P) : List Byte :=
  codec.enc k.ak ++ frToBytes k.nsk

/-- `ProofGenerationKey::read` (external type; behaviour from the spec's error
contract): reads 32 bytes and decompresses `ak`, then 32 bytes of canonical
`nsk`; malformed bytes or a short source fail with an error. -/
def ProofGenerationKey.read {P : Type} (codec : PointCodec P) (s : List Byte) :
    Option (ProofGenerationKey P × List Byte) :=
  match readExact 32 s with
  | none => none
  | some (akBytes, s1) =>
    match codec.dec akBytes with
    | none => none
    | some ak =>
      match readExact 32 s1 with
      | none => none
      | some (nskBytes, s2) =>
        match frFromBytes nskBytes with
        | none => none
        | some nsk => some (⟨ak, nsk⟩, s2)

/-- `MintAsset::write`: a presence byte (`1` or `0`) for the proof-generation
key, followed by its bytes when present; then the same pattern for the
public-key randomness. -/
def MintAsset.write {P : Type} (codec : PointCodec P) (m : MintAsset P) : List Byte :=
  (match m.proof_generation_key with
   | some k => (1 : Byte) :: ProofGenerationKey.to_bytes_le codec k
   | none => [(0 : Byte)]) ++
  (match m.public_key_randomness with
   | some ar => (1 : Byte) :: frToBytes ar
   | none => [(0 : Byte)])

/-- First half of `MintAsset::read`: when the presence byte equals `1`, read
the proof-generation key (failures propagate as `io` errors); any other
presence byte leaves the field absent. -/
def pgkStep {P : Type} (codec : PointCodec P) (b1 : Byte) (s1 : List Byte) :
    Option (Option (ProofGenerationKey P) × List Byte) :=
  if b1 = (1 : Byte) then
    (ProofGenerationKey.read codec s1).map (fun x => (some x.1, x.2))
  else some (none, s1)

/-- Second half of `MintAsset::read`: when the presence byte equals `1`, read
32 scalar bytes (short read is an `io` error) and decode them with
`Fr::from_bytes(..).unwrap()` — a non-canonical value panics. -/
def arStep {P : Type} (pgk : Option (ProofGenerationKey P)) (b2 : Byte) (s3 : List Byte) :
    ReadResult (MintAsset P) :=
  if b2 = (1 : Byte) then
    match readExact 32 s3 with
    | none => .ioError
    | some (arBytes, _) =>
      match frFromBytes arBytes with
      | none => .panic
      | some ar => .ok ⟨pgk, some ar⟩
  else .ok ⟨pgk, none⟩

/-- `MintAsset::read`: reads a presence byte for each field and the field's
bytes when the presence byte equals `1`.  Short reads and malformed
proof-generation-key bytes produce an `io` error; a non-canonical
`public_key_randomness` scalar hits `Fr::from_bytes(..).unwrap()` and
panics. -/
def MintAsset.read {P : Type} (codec : PointCodec P) (s : List Byte) :
    ReadResult (MintAsset P) :=
  match readU8 s with
  | none => .ioError
  | some (b1, s1) =>
    match pgkStep codec b1 s1 with
    | none => .ioError
    | some (pgk, s2) =>
      match readU8 s2 with
      | none => .ioError
      | some (b2, s3) => arStep pgk b2 s3

/-! ## The Mint-Asset circuit (`MintAsset::synthesize`), value-level model

The constraint-system and gadget library are external (bellperson /
zcash_proofs); the model below captures the value semantics the spec assigns
to each gadget (§4.4) and the exact order in which `synthesize` invokes them,
tracking the public inputs exposed by `inputize` and the `ivk` preimage / hash
bit vectors.  Witness values are optional, mirroring the framework's
"unresolved assignment" mode used during parameter generation. -/

/-- An affine point of the Jubjub curve: coordinates `(u, v)` in the base
field. -/
structure Point where
  u : Fq
  v : Fq
  deriving DecidableEq

/-- The Edwards `d` coefficient of Jubjub, `-(10240/10245)` in `Fq`. -/
def jubjubD : Fq := -(10240 * (10245 : Fq)⁻¹)

/-- Complete twisted-Edwards addition on Jubjub (`a = -1`). -/
def pointAdd (p1 p2 : Point) : Point :=
  let t := jubjubD * p1.u * p2.u * p1.v * p2.v
  { u := (p1.u * p2.v + p1.v * p2.u) * (1 + t)⁻¹
    v := (p1.v * p2.v + p1.u * p2.u) * (1 - t)⁻¹ }

/-- Scalar multiplication on Jubjub by a natural number. -/
def scalarMul : ℕ → Point → Point
  | 0, _ => ⟨0, 1⟩
  | n + 1, g => pointAdd g (scalarMul n g)

/-- Value semantics of the `repr` gadget on an Edwards point: the 255
little-endian bits of the `v` coordinate followed by one sign bit (the lowest
bit of `u`); 256 bits in total. -/
def reprBits (p : Point) : List Bool :=
  natToBitsLE 255 p.v.val ++ [decide (p.u.val % 2 = 1)]

@[simp]
theorem reprBits_length (p : Point) : (reprBits p).length = 256 := by
  simp [reprBits]

/-- Sequence a list of optional bits: all values, or `none` if any bit is
unassigned. -/
def seqBits : List (Option Bool) → Option (List Bool)
  | [] => some []
  | none :: _ => none
  | some b :: rest => (seqBits rest).map (b :: ·)

@[simp]
theorem seqBits_map_some (l : List Bool) : seqBits (l.map some) = some l := by
  induction l with
  | nil => simp [seqBits]
  | cons b l ih => simp [seqBits, ih]

theorem seqBits_replicate_none (n : ℕ) (h : 0 < n) :
    seqBits (List.replicate n none) = none := by
  cases n with
  | zero => omega
  | succ n => simp [List.replicate, seqBits]

/-- Value semantics of `boolean::field_into_boolean_vec_le` on an optional
`jubjub::Fr`: `NUM_BITS` little-endian bits when the value is assigned,
`NUM_BITS` unassigned bits otherwise. -/
def optFrBitsLE (x : Option Fr) : List (Option Bool) :=
  match x with
  | some v => (natToBitsLE frNumBits v.val).map some
  | none => List.replicate frNumBits none

/-- Value semantics of `ecc::fixed_base_multiplication`: the scalar read off
the little-endian bits times the fixed generator, when all bits are
assigned. -/
def fixedBaseMulOpt (g : Point) (bits : List (Option Bool)) : Option Point :=
  (seqBits bits).map (fun bs => scalarMul (bitsToNatLE bs) g)

/-- Value semantics of the point `repr` gadget on an optionally-assigned
point: 256 bits, assigned exactly when the point is. -/
def reprOpt (p : Option Point) : List (Option Bool) :=
  match p with
  | some p => (reprBits p).map some
  | none => List.replicate 256 none

@[simp]
theorem reprOpt_length (p : Option Point) : (reprOpt p).length = 256 := by
  cases p with
  | none => rw [reprOpt, List.length_replicate]
  | some p => simp [reprOpt]

/-- Modelled from the spec: the external gadget and generator constants of
components A–C.  The three generators are fixed subgroup points, and the
in-circuit Blake2s gadget computes a function from 512 input bits to 256
output bits that matches the out-of-circuit reference (its only property the
claims rely on is the 256-bit output length). -/
structure Gadgets where
  SPENDING_KEY_GENERATOR : Point
  PROOF_GENERATION_KEY_GENERATOR : Point
  PUBLIC_KEY_GENERATOR : Point
  blake2sFn : List Bool → List Bool
  blake2sFn_length : ∀ bs, (blake2sFn bs).length = 256

/-- Value semantics of the in-circuit `blake2s` gadget: 256 output bits,
assigned (to the reference hash of the input bits) exactly when every input
bit is assigned. -/
def blakeOpt (E : Gadgets) (pre : List (Option Bool)) : List (Option Bool) :=
  match seqBits pre with
  | some bs => (E.blake2sFn bs).map some
  | none => List.replicate 256 none

theorem blakeOpt_length (E : Gadgets) (pre : List (Option Bool)) :
    (blakeOpt E pre).length = 256 := by
  unfold blakeOpt
  cases seqBits pre with
  | none => rw [List.length_replicate]
  | some bs => simp [E.blake2sFn_length]

/-- The observable trace of one run of `MintAsset::synthesize`: the public
inputs in exposure order, the `ivk` preimage bits, the Blake2s output bits and
the truncated `ivk` bits. -/
structure SynthTrace where
  publicInputs : List (Option Fq)
  ivkPreimage : List (Option Bool)
  hashBits : List (Option Bool)
  ivkBits : List (Option Bool)
  deriving DecidableEq, Inhabited

/-- `MintAsset::synthesize`, translated step by step from
`mint_asset.rs`: witness `ak`; check `ak` not of small order (constraints
only, no value effect); decompose `ar` and fixed-base multiply by
`SPENDING_KEY_GENERATOR`; add to get `rk` and expose it; decompose `nsk` and
fixed-base multiply by `PROOF_GENERATION_KEY_GENERATOR` to get `nk`; build the
`ivk` preimage from the `repr` bits of `ak` then `nk`; `assert_eq!` its length
against 512 (`none` models the abort); Blake2s with the `ivk` personalization;
truncate to `CAPACITY` bits; fixed-base multiply by `PUBLIC_KEY_GENERATOR` to
get the owner address and expose it. -/
def synthesize (E : Gadgets) (w : MintAsset Point) : Option SynthTrace :=
  let akVal : Option Point := w.proof_generation_key.map (fun k => k.ak)
  -- `ak.assert_not_small_order`: emits constraints, no value-level effect
  let arBits : List (Option Bool) := optFrBitsLE w.public_key_randomness
  let arPoint : Option Point := fixedBaseMulOpt E.SPENDING_KEY_GENERATOR arBits
  let rkVal : Option Point :=
    match akVal, arPoint with
    | some a, some b => some (pointAdd a b)
    | _, _ => none
  let rkInputs : List (Option Fq) := [rkVal.map Point.u, rkVal.map Point.v]
  let nskBits : List (Option Bool) := optFrBitsLE (w.proof_generation_key.map (fun k => k.nsk))
  let nkVal : Option Point := fixedBaseMulOpt E.PROOF_GENERATION_KEY_GENERATOR nskBits
  let ivkPreimage : List (Option Bool) := reprOpt akVal ++ reprOpt nkVal
  if ivkPreimage.length = 512 then
    let hashBits : List (Option Bool) := blakeOpt E ivkPreimage
    let ivkBits : List (Option Bool) := hashBits.take CAPACITY
    let pkdVal : Option Point := fixedBaseMulOpt E.PUBLIC_KEY_GENERATOR ivkBits
    some { publicInputs := rkInputs ++ [pkdVal.map Point.u, pkdVal.map Point.v]
           ivkPreimage := ivkPreimage
           hashBits := hashBits
           ivkBits := ivkBits }
  else none

/-- The spec's formula for the rerandomized key: `rk = ak + [ar]·SPENDING_KEY_GENERATOR`,
assigned when both optional witness fields are present. -/
def specRk (E : Gadgets) (w : MintAsset Point) : Option Point :=
  Option.map₂ (fun (k : ProofGenerationKey Point) (ar : Fr) =>
    pointAdd k.ak (scalarMul ar.val E.SPENDING_KEY_GENERATOR))
    w.proof_generation_key w.public_key_randomness

/-- The spec's formula for the owner address:
`pk_d = [ivk]·PUBLIC_KEY_GENERATOR` with
`ivk = truncate_CAPACITY(Blake2s(repr ak ‖ repr nk))` and
`nk = [nsk]·PROOF_GENERATION_KEY_GENERATOR`, assigned when the
proof-generation key is present. -/
def specPkd (E : Gadgets) (w : MintAsset Point) : Option Point :=
  w.proof_generation_key.map (fun k =>
    scalarMul
      (bitsToNatLE ((E.blake2sFn (reprBits k.ak ++
        reprBits (scalarMul k.nsk.val E.PROOF_GENERATION_KEY_GENERATOR))).take CAPACITY))
      E.PUBLIC_KEY_GENERATOR)

/-! ## Ephemeral key pair (`keys/ephemeral.rs`) -/

/-- Modelled from the spec: the extended 160-byte representation of a Jubjub
subgroup point (component A) — five 32-byte base-field coordinates carrying
redundant data for fast deserialization. -/
structure SubgroupPointExt where
  u : Fq
  v : Fq
  z : Fq
  t1 : Fq
  t2 : Fq
  deriving DecidableEq

/-- `SubgroupPoint::to_bytes_le` (external type, layout from the spec): the
five coordinates, 32 little-endian bytes each, 160 bytes in total. -/
def SubgroupPointExt.to_bytes_le (p : SubgroupPointExt) : List Byte :=
  fqToBytes p.u ++ (fqToBytes p.v ++ (fqToBytes p.z ++ (fqToBytes p.t1 ++ fqToBytes p.t2)))

/-- `SubgroupPoint::from_bytes_le` (external type, from the spec): unchecked
decode of the five coordinates; total, performs no validation. -/
def SubgroupPointExt.from_bytes_le (bs : List Byte) : SubgroupPointExt :=
  { u := fqFromBytesUnchecked (bs.take 32)
    v := fqFromBytesUnchecked ((bs.drop 32).take 32)
    z := fqFromBytesUnchecked ((bs.drop 64).take 32)
    t1 := fqFromBytesUnchecked ((bs.drop 96).take 32)
    t2 := fqFromBytesUnchecked ((bs.drop 128).take 32) }

/-- Modelled from the spec: the external Jubjub subgroup arithmetic used by
`EphemeralKeyPair::new` — the fixed generator `PUBLIC_KEY_GENERATOR` and
scalar multiplication of a subgroup point by an `Fr` scalar. -/
structure SubgroupOps where
  PUBLIC_KEY_GENERATOR : SubgroupPointExt
  mul : SubgroupPointExt → Fr → SubgroupPointExt

/-- The Diffie–Hellman ephemeral key pair: a secret scalar and its public
point. -/
structure EphemeralKeyPair where
  secret : Fr
  public : SubgroupPointExt
  deriving DecidableEq

/-- `EphemeralKeyPair::new`, with the sampled secret scalar passed in
explicitly (the source draws it from a CSPRNG): the public point is
`PUBLIC_KEY_GENERATOR * secret`. -/
def EphemeralKeyPair.new (ops : SubgroupOps) (secret : Fr) : EphemeralKeyPair :=
  { secret := secret
    public := ops.mul ops.PUBLIC_KEY_GENERATOR secret }

/-- `EphemeralKeyPair::to_bytes_le`: 32 bytes of the canonical secret followed
by the 160-byte extended encoding of the public point. -/
def EphemeralKeyPair.to_bytes_le (kp : EphemeralKeyPair) : List Byte :=
  frToBytes kp.secret ++ kp.public.to_bytes_le

/-- `EphemeralKeyPair::from_bytes_le`: slices `[0..32)` and `[32..192)`
(panicking — modelled as `none` — on a short buffer), decodes the secret with
the canonical check (`unwrap` modelled as `none`) and the public point
unchecked. -/
def EphemeralKeyPair.from_bytes_le (bs : List Byte) : Option EphemeralKeyPair :=
  if 192 ≤ bs.length then
    match frFromBytes (bs.take 32) with
    | none => none
    | some secret => some ⟨secret, SubgroupPointExt.from_bytes_le ((bs.drop 32).take 160)⟩
  else none

/-! ## Concrete instantiations of the external parameters

Used to evaluate the theorems at concrete inputs. -/

/-- A concrete point codec over `Unit` satisfying the external codec
contract. -/
def unitCodec : PointCodec Unit :=
  { enc := fun _ => List.replicate 32 (0 : Byte)
    dec := fun bs => if bs = List.replicate 32 (0 : Byte) then some () else none
    enc_length := fun _ => List.length_replicate 32 _
    dec_enc := fun _ => by simp }

/-- A concrete instantiation of the external gadget constants. -/
def unitGadgets : Gadgets :=
  { SPENDING_KEY_GENERATOR := ⟨0, 1⟩
    PROOF_GENERATION_KEY_GENERATOR := ⟨0, 1⟩
    PUBLIC_KEY_GENERATOR := ⟨0, 1⟩
    blake2sFn := fun _ => List.replicate 256 false
    blake2sFn_length := fun _ => List.length_replicate 256 _ }

/-! ## Theorems about the witness serialization -/

theorem readExact_append (n : ℕ) (l rest : List Byte) (h : l.length = n) :
    readExact n (l ++ rest) = some (l, rest) := by
  unfold readExact
  rw [if_pos (by rw [List.length_append]; omega)]
  rw [← h, List.take_left, List.drop_left]

theorem readExact_exact (n : ℕ) (l : List Byte) (h : l.length = n) :
    readExact n l = some (l, []) := by
  unfold readExact
  rw [if_pos (le_of_eq h.symm), ← h, List.take_length, List.drop_length]

theorem pgkRead_pgkBytes {P : Type} (codec : PointCodec P) (k : ProofGenerationKey P)
    (rest : List Byte) :
    ProofGenerationKey.read codec (ProofGenerationKey.to_bytes_le codec k ++ rest) =
      some (k, rest) := by
  unfold ProofGenerationKey.to_bytes_le ProofGenerationKey.read
  rw [List.append_assoc]
  rw [readExact_append 32 _ _ (codec.enc_length k.ak)]
  simp only [codec.dec_enc]
  rw [readExact_append 32 _ _ (frToBytes_length k.nsk)]
  simp only [frFromBytes_frToBytes]

theorem pgkStep_pgkBytes {P : Type} (codec : PointCodec P) (k : ProofGenerationKey P)
    (rest : List Byte) :
    pgkStep codec 1 (ProofGenerationKey.to_bytes_le codec k ++ rest) = some (some k, rest) := by
  unfold pgkStep
  rw [if_pos rfl, pgkRead_pgkBytes]
  rfl

theorem pgkStep_skip {P : Type} (codec : PointCodec P) (b : Byte) (s : List Byte)
    (hb : b ≠ 1) : pgkStep codec b s = some (none, s) := by
  unfold pgkStep
  rw [if_neg hb]

theorem arStep_frBytes {P : Type} (pgk : Option (ProofGenerationKey P)) (a : Fr) :
    arStep pgk 1 (frToBytes a) = .ok ⟨pgk, some a⟩ := by
  unfold arStep
  rw [if_pos rfl, readExact_exact 32 _ (frToBytes_length a)]
  simp [frFromBytes_frToBytes]

theorem arStep_skip {P : Type} (pgk : Option (ProofGenerationKey P)) (b : Byte)
    (s : List Byte) (hb : b ≠ 1) : arStep pgk b s = .ok ⟨pgk, none⟩ := by
  unfold arStep
  rw [if_neg hb]

/-- C3: for every Mint-Asset witness `w`, in all four combinations of presence
of `proof_generation_key` and `public_key_randomness`, `MintAsset::read`
applied to the output of `MintAsset::write` returns the witness `w`
componentwise. -/
theorem mintAsset_read_write_roundtrip {P : Type} (codec : PointCodec P) (w : MintAsset P) :
    MintAsset.read codec (MintAsset.write codec w) = .ok w := by
  obtain ⟨pgk, ar⟩ := w
  cases pgk with
  | some k =>
    cases ar with
    | some a =>
      show MintAsset.read codec
        (((1 : Byte) :: ProofGenerationKey.to_bytes_le codec k) ++
          ((1 : Byte) :: frToBytes a)) = _
      rw [List.cons_append]
      unfold MintAsset.read
      simp only [readU8, pgkStep_pgkBytes, arStep_frBytes]
    | none =>
      show MintAsset.read codec
        (((1 : Byte) :: ProofGenerationKey.to_bytes_le codec k) ++ [(0 : Byte)]) = _
      rw [List.cons_append]
      unfold MintAsset.read
      simp only [readU8, pgkStep_pgkBytes]
      rw [arStep_skip _ _ _ (by decide)]
  | none =>
    cases ar with
    | some a =>
      show MintAsset.read codec ((0 : Byte) :: (1 : Byte) :: frToBytes a) = _
      unfold MintAsset.read
      simp only [readU8]
      rw [pgkStep_skip codec _ _ (by decide)]
      simp only [readU8, arStep_frBytes]
    | none =>
      show MintAsset.read codec ((0 : Byte) :: [(0 : Byte)]) = _
      unfold MintAsset.read
      simp only [readU8]
      rw [pgkStep_skip codec _ _ (by decide)]
      simp only [readU8]
      rw [arStep_skip _ _ _ (by decide)]

/-- C4 (counterexample): the claim predicts a 1-byte output for the witness
with both fields absent, but `write` emits a presence byte for each of the two
fields, so the output has 2 bytes. -/
theorem mintAsset_write_length_claim_cex :
    ¬ ((MintAsset.write unitCodec ⟨none, none⟩).length = 1) := by decide

/-- C4 (amended): the byte length of the output of `MintAsset::write` is
exactly 2, 66, 34, or 98 bytes according to the four combinations of the two
presence flags (absent/absent, pgk-only, ar-only, both present): each field
contributes one presence byte, plus 64 bytes for a present proof-generation
key and 32 bytes for a present rerandomization scalar. -/
theorem mintAsset_write_lengths {P : Type} (codec : PointCodec P)
    (k : ProofGenerationKey P) (a : Fr) :
    (MintAsset.write codec ⟨none, none⟩).length = 2 ∧
    (MintAsset.write codec ⟨some k, none⟩).length = 66 ∧
    (MintAsset.write codec ⟨none, some a⟩).length = 34 ∧
    (MintAsset.write codec ⟨some k, some a⟩).length = 98 := by
  refine ⟨?_, ?_, ?_, ?_⟩ <;>
    simp [MintAsset.write, ProofGenerationKey.to_bytes_le, codec.enc_length]

/-- C5 (counterexample): when the 32 bytes following an `ar`-presence byte of
`1` are not a canonical `Fr` encoding (here `0xFF^32`), `MintAsset::read` does
not return an error to the caller: `Fr::from_bytes(..).unwrap()` panics. -/
theorem mintAsset_read_noncanonical_scalar_panics :
    frFromBytes (List.replicate 32 (255 : Byte)) = none ∧
    MintAsset.read unitCodec ((0 : Byte) :: (1 : Byte) :: List.replicate 32 (255 : Byte)) =
      .panic := by
  constructor <;> decide

/-- C5 (amended): `MintAsset::read` returns an error to the caller whenever
the source is short or the underlying proof-generation-key bytes are
malformed, but when the 32 scalar bytes following an `ar`-presence byte of `1`
do not decode to a canonical `Fr` element it aborts (panics on `unwrap`)
rather than returning an error. -/
theorem mintAsset_read_failure_semantics {P : Type} (codec : PointCodec P) (s : List Byte) :
    (MintAsset.read codec [] = .ioError) ∧
    (s.length < 32 → MintAsset.read codec ((1 : Byte) :: s) = .ioError) ∧
    (32 ≤ s.length → codec.dec (s.take 32) = none →
      MintAsset.read codec ((1 : Byte) :: s) = .ioError) ∧
    (32 ≤ s.length → frFromBytes (s.take 32) = none →
      MintAsset.read codec ((0 : Byte) :: (1 : Byte) :: s) = .panic) := by
  refine ⟨by simp [MintAsset.read, readU8], ?_, ?_, ?_⟩
  · intro hshort
    unfold MintAsset.read
    simp only [readU8]
    have hstep : pgkStep codec 1 s = none := by
      unfold pgkStep ProofGenerationKey.read
      rw [if_pos rfl, readExact, if_neg (by omega)]
      rfl
    rw [hstep]
  · intro hlen hdec
    unfold MintAsset.read
    simp only [readU8]
    have hstep : pgkStep codec 1 s = none := by
      unfold pgkStep ProofGenerationKey.read
      rw [if_pos rfl, readExact, if_pos hlen]
      simp [hdec]
    rw [hstep]
  · intro hlen hfr
    unfold MintAsset.read
    simp only [readU8]
    rw [pgkStep_skip codec _ _ (by decide)]
    simp only [readU8]
    unfold arStep
    rw [if_pos rfl, readExact, if_pos hlen]
    simp [hfr]

/-- C5 (witness): the amended failure semantics evaluated on concrete inputs:
all-`0xFF` bytes are rejected by the point codec (error) and are a
non-canonical scalar (panic). -/
theorem mintAsset_read_failure_semantics_witness :
    MintAsset.read unitCodec ((1 : Byte) :: List.replicate 32 (255 : Byte)) = .ioError ∧
    MintAsset.read unitCodec
      ((0 : Byte) :: (1 : Byte) :: List.replicate 32 (255 : Byte)) = .panic :=
  ⟨(mintAsset_read_failure_semantics unitCodec (List.replicate 32 (255 : Byte))).2.2.1
      (by decide) (by decide),
   (mintAsset_read_failure_semantics unitCodec (List.replicate 32 (255 : Byte))).2.2.2
      (by decide) (by decide)⟩

/-- C10: `MintAsset::read` treats any presence byte other than `1` (including
`2` through `255`) as marking the corresponding optional field absent; it does
not fail on an out-of-range presence tag, so byte strings that are not valid
`write` outputs can still decode successfully to a witness with absent
fields. -/
theorem mintAsset_read_lenient_presence_byte {P : Type} (codec : PointCodec P)
    (b c : Byte) (rest : List Byte) (hb : b ≠ 1) (hc : c ≠ 1) :
    MintAsset.read codec (b :: c :: rest) = .ok ⟨none, none⟩ := by
  unfold MintAsset.read
  simp only [readU8]
  rw [pgkStep_skip codec _ _ hb]
  simp only [readU8]
  rw [arStep_skip _ _ _ hc]

/-- C10 (witness): the out-of-range presence tags `2` and `3` decode to the
witness with both fields absent. -/
theorem mintAsset_read_lenient_presence_byte_witness :
    MintAsset.read unitCodec [(2 : Byte), (3 : Byte)] = .ok ⟨none, none⟩ :=
  mintAsset_read_lenient_presence_byte unitCodec 2 3 [] (by decide) (by decide)

/-! ## Theorems about the ephemeral key pair -/

/-- C6: every `EphemeralKeyPair` constructed by `EphemeralKeyPair::new`
satisfies `public == [secret]·PUBLIC_KEY_GENERATOR` (for the sampled secret
scalar), and the secret stored is the sampled one; both fields are immutable
after construction (the embedding has no mutation), so the invariant holds at
all times for such a pair. -/
theorem ephemeralKeyPair_new_invariant (ops : SubgroupOps) (secret : Fr) :
    (EphemeralKeyPair.new ops secret).public = ops.mul ops.PUBLIC_KEY_GENERATOR secret ∧
    (EphemeralKeyPair.new ops secret).secret = secret :=
  ⟨rfl, rfl⟩

theorem take32_append (l rest : List Byte) (h : l.length = 32) :
    (l ++ rest).take 32 = l := by
  rw [← h, List.take_left]

theorem drop32_append (l rest : List Byte) (h : l.length = 32) :
    (l ++ rest).drop 32 = rest := by
  rw [← h, List.drop_left]

theorem subgroupPointExt_bytes_roundtrip (p : SubgroupPointExt) :
    (p.to_bytes_le).length = 160 ∧
    SubgroupPointExt.from_bytes_le p.to_bytes_le = p := by
  obtain ⟨u, v, z, t1, t2⟩ := p
  constructor
  · simp [SubgroupPointExt.to_bytes_le]
  · show SubgroupPointExt.from_bytes_le
      (fqToBytes u ++ (fqToBytes v ++ (fqToBytes z ++ (fqToBytes t1 ++ fqToBytes t2)))) = _
    have e32 : (fqToBytes u ++ (fqToBytes v ++ (fqToBytes z ++ (fqToBytes t1 ++ fqToBytes t2)))).drop 32 =
        fqToBytes v ++ (fqToBytes z ++ (fqToBytes t1 ++ fqToBytes t2)) :=
      drop32_append _ _ (fqToBytes_length u)
    have e64 : (fqToBytes u ++ (fqToBytes v ++ (fqToBytes z ++ (fqToBytes t1 ++ fqToBytes t2)))).drop 64 =
        fqToBytes z ++ (fqToBytes t1 ++ fqToBytes t2) := by
      have := (List.drop_drop 32 32
        (fqToBytes u ++ (fqToBytes v ++ (fqToBytes z ++ (fqToBytes t1 ++ fqToBytes t2))))).symm
      calc (fqToBytes u ++ (fqToBytes v ++ (fqToBytes z ++ (fqToBytes t1 ++ fqToBytes t2)))).drop 64
          = ((fqToBytes u ++ (fqToBytes v ++ (fqToBytes z ++ (fqToBytes t1 ++ fqToBytes t2)))).drop 32).drop 32 := this
        _ = _ := by rw [e32]; exact drop32_append _ _ (fqToBytes_length v)
    have e96 : (fqToBytes u ++ (fqToBytes v ++ (fqToBytes z ++ (fqToBytes t1 ++ fqToBytes t2)))).drop 96 =
        fqToBytes t1 ++ fqToBytes t2 := by
      have := (List.drop_drop 32 64
        (fqToBytes u ++ (fqToBytes v ++ (fqToBytes z ++ (fqToBytes t1 ++ fqToBytes t2))))).symm
      calc (fqToBytes u ++ (fqToBytes v ++ (fqToBytes z ++ (fqToBytes t1 ++ fqToBytes t2)))).drop 96
          = ((fqToBytes u ++ (fqToBytes v ++ (fqToBytes z ++ (fqToBytes t1 ++ fqToBytes t2)))).drop 64).drop 32 := this
        _ = _ := by rw [e64]; exact drop32_append _ _ (fqToBytes_length z)
    have e128 : (fqToBytes u ++ (fqToBytes v ++ (fqToBytes z ++ (fqToBytes t1 ++ fqToBytes t2)))).drop 128 =
        fqToBytes t2 := by
      have := (List.drop_drop 32 96
        (fqToBytes u ++ (fqToBytes v ++ (fqToBytes z ++ (fqToBytes t1 ++ fqToBytes t2))))).symm
      calc (fqToBytes u ++ (fqToBytes v ++ (fqToBytes z ++ (fqToBytes t1 ++ fqToBytes t2)))).drop 128
          = ((fqToBytes u ++ (fqToBytes v ++ (fqToBytes z ++ (fqToBytes t1 ++ fqToBytes t2)))).drop 96).drop 32 := this
        _ = _ := by rw [e96]; exact drop32_append _ _ (fqToBytes_length t1)
    unfold SubgroupPointExt.from_bytes_le
    rw [e32, e64, e96, e128]
    rw [take32_append _ _ (fqToBytes_length u), take32_append _ _ (fqToBytes_length v),
      take32_append _ _ (fqToBytes_length z), take32_append _ _ (fqToBytes_length t1)]
    rw [show (fqToBytes t2).take 32 = fqToBytes t2 from by
      rw [← fqToBytes_length t2, List.take_length]]
    simp [fqFromBytesUnchecked_fqToBytes]

/-- C7: for every `EphemeralKeyPair`, `to_bytes_le` produces exactly 192 bytes
(the 32-byte canonical little-endian secret followed by the 160-byte extended
encoding of the public point), and `from_bytes_le` applied to that output
returns a key pair whose `secret` and `public` fields equal those of the
original. -/
theorem ephemeralKeyPair_bytes_roundtrip (kp : EphemeralKeyPair) :
    (kp.to_bytes_le).length = 192 ∧
    EphemeralKeyPair.from_bytes_le kp.to_bytes_le = some kp := by
  obtain ⟨hplen, hp⟩ := subgroupPointExt_bytes_roundtrip kp.public
  have hlen : (kp.to_bytes_le).length = 192 := by
    simp [EphemeralKeyPair.to_bytes_le, hplen]
  refine ⟨hlen, ?_⟩
  unfold EphemeralKeyPair.from_bytes_le EphemeralKeyPair.to_bytes_le
  rw [if_pos (le_of_eq (by simpa [EphemeralKeyPair.to_bytes_le] using hlen.symm))]
  rw [take32_append _ _ (frToBytes_length kp.secret),
    drop32_append _ _ (frToBytes_length kp.secret), frFromBytes_frToBytes]
  rw [show (kp.public.to_bytes_le).take 160 = kp.public.to_bytes_le from by
    rw [← hplen, List.take_length]]
  rw [hp]

/-! ## Theorems about the circuit -/

theorem frVal_lt_two_pow (x : Fr) : x.val < 2 ^ frNumBits :=
  lt_trans (ZMod.val_lt x) (by norm_num [rJUB, frNumBits])

theorem fixedBaseMulOpt_map_some (g : Point) (l : List Bool) :
    fixedBaseMulOpt g (l.map some) = some (scalarMul (bitsToNatLE l) g) := by
  simp [fixedBaseMulOpt]

theorem fixedBaseMulOpt_optFrBitsLE_some (g : Point) (x : Fr) :
    fixedBaseMulOpt g (optFrBitsLE (some x)) = some (scalarMul x.val g) := by
  simp [fixedBaseMulOpt, optFrBitsLE,
    bitsToNatLE_natToBitsLE frNumBits x.val (frVal_lt_two_pow x)]

theorem fixedBaseMulOpt_optFrBitsLE_none (g : Point) :
    fixedBaseMulOpt g (optFrBitsLE none) = none := by
  simp [fixedBaseMulOpt, optFrBitsLE,
    seqBits_replicate_none frNumBits (by norm_num [frNumBits])]

theorem seqBits_replicate_append (n : ℕ) (h : 0 < n) (l : List (Option Bool)) :
    seqBits (List.replicate n none ++ l) = none := by
  cases n with
  | zero => omega
  | succ n => simp [List.replicate_succ, seqBits]

theorem blakeOpt_map_some_append (E : Gadgets) (l1 l2 : List Bool) :
    blakeOpt E (l1.map some ++ l2.map some) = (E.blake2sFn (l1 ++ l2)).map some := by
  have h : seqBits (l1.map some ++ l2.map some) = some (l1 ++ l2) := by
    rw [← List.map_append]
    exact seqBits_map_some _
  unfold blakeOpt
  rw [h]

theorem fixedBaseMulOpt_take_map_some (g : Point) (n : ℕ) (l : List Bool) :
    fixedBaseMulOpt g ((l.map some).take n) = some (scalarMul (bitsToNatLE (l.take n)) g) := by
  rw [← List.map_take]
  exact fixedBaseMulOpt_map_some g (l.take n)

theorem blakeOpt_unassigned (E : Gadgets) (l : List (Option Bool)) :
    blakeOpt E (List.replicate 256 none ++ l) = List.replicate 256 none := by
  unfold blakeOpt
  rw [seqBits_replicate_append 256 (by norm_num) l]

theorem blakeOpt_replicate_512 (E : Gadgets) :
    blakeOpt E (List.replicate 512 none) = List.replicate 256 none := by
  unfold blakeOpt
  rw [seqBits_replicate_none 512 (by norm_num)]

theorem take_CAPACITY_replicate :
    (List.replicate 256 (none : Option Bool)).take CAPACITY = List.replicate CAPACITY none := by
  simp [CAPACITY, List.take_replicate]

theorem fixedBaseMulOpt_replicate_none (g : Point) :
    fixedBaseMulOpt g (List.replicate CAPACITY none) = none := by
  simp [fixedBaseMulOpt, seqBits_replicate_none CAPACITY (by norm_num [CAPACITY])]

theorem fixedBaseMulOpt_replicate_min_none (g : Point) :
    fixedBaseMulOpt g (List.replicate (CAPACITY ⊓ 256) none) = none := by
  rw [show CAPACITY ⊓ 256 = CAPACITY from by norm_num [CAPACITY]]
  exact fixedBaseMulOpt_replicate_none g

/-- C1: `MintAsset::synthesize` exposes exactly four public inputs, in the
order `rk.u, rk.v, pk_d.u, pk_d.v`, where `rk = ak + [ar]·SPENDING_KEY_GENERATOR`
(`specRk`) and `pk_d = [ivk]·PUBLIC_KEY_GENERATOR` with `ivk` the truncated
Blake2s of `repr ak ‖ repr nk` (`specPkd`), for every witness — including
witnesses with absent optional fields, whose input values are simply
unassigned. -/
theorem mintAsset_synthesize_public_input_order (E : Gadgets) (w : MintAsset Point) :
    (synthesize E w).map SynthTrace.publicInputs =
      some [(specRk E w).map Point.u, (specRk E w).map Point.v,
            (specPkd E w).map Point.u, (specPkd E w).map Point.v] := by
  obtain ⟨pgk, ar⟩ := w
  cases pgk <;> cases ar <;>
    simp [-List.reduceReplicate, synthesize, specRk, specPkd, Option.map₂,
      reprOpt, reprOpt_length,
      fixedBaseMulOpt_optFrBitsLE_some, fixedBaseMulOpt_optFrBitsLE_none,
      fixedBaseMulOpt_take_map_some, fixedBaseMulOpt_replicate_none,
      fixedBaseMulOpt_replicate_min_none,
      blakeOpt_map_some_append, blakeOpt_unassigned, blakeOpt_replicate_512,
      take_CAPACITY_replicate]

/-- C8: for every witness, the `ivk` preimage built in `synthesize` (the
`repr` bits of `ak` followed by the `repr` bits of `nk`) has length exactly
512 bits, so the `assert_eq!` checking this length never fails (`synthesize`
never takes the abort branch). -/
theorem mintAsset_ivk_preimage_length (E : Gadgets) (w : MintAsset Point) :
    (synthesize E w).map (fun st => st.ivkPreimage.length) = some 512 := by
  simp [synthesize, reprOpt_length]

/-- C2: in `synthesize`, the scalar `ivk` is obtained by keeping exactly the
low `CAPACITY` bits of the 256-bit Blake2s output (little-endian, higher bits
discarded by `Vec::truncate`), so the `ivk` bit string used for the `pk_d`
fixed-base multiplication has length `CAPACITY` and any value it denotes is
below `2 ^ CAPACITY` — the truncation itself is the range bound; no
range-proof is involved. -/
theorem mintAsset_ivk_truncation (E : Gadgets) (w : MintAsset Point) (st : SynthTrace)
    (h : synthesize E w = some st) :
    st.ivkBits = st.hashBits.take CAPACITY ∧
    st.ivkBits.length = CAPACITY ∧
    bitsToNatLE (st.ivkBits.map (fun ob => ob.getD false)) < 2 ^ CAPACITY := by
  unfold synthesize at h
  rw [if_pos (by simp [reprOpt_length])] at h
  rw [Option.some.injEq] at h
  subst h
  refine ⟨rfl, ?_, ?_⟩
  · show ((blakeOpt E _).take CAPACITY).length = CAPACITY
    rw [List.length_take, blakeOpt_length]
    simp [CAPACITY]
  · have hlt := bitsToNatLE_lt
      (((blakeOpt E (reprOpt (Option.map (fun k => k.ak) w.proof_generation_key) ++
          reprOpt (fixedBaseMulOpt E.PROOF_GENERATION_KEY_GENERATOR
            (optFrBitsLE (Option.map (fun k => k.nsk) w.proof_generation_key))))).take
        CAPACITY).map (fun ob => ob.getD false))
    rw [List.length_map, List.length_take, blakeOpt_length] at hlt
    simpa [CAPACITY] using hlt

/-- C2 (witness): the truncation facts evaluated on the concrete run of
`synthesize` with both witness fields absent and the trivial instantiation of
the external gadgets. -/
def trace0 : SynthTrace :=
  { publicInputs := [none, none, none, none]
    ivkPreimage := List.replicate 512 none
    hashBits := List.replicate 256 none
    ivkBits := List.replicate 251 none }

theorem mintAsset_ivk_truncation_witness :
    trace0.ivkBits = trace0.hashBits.take CAPACITY ∧
    trace0.ivkBits.length = CAPACITY ∧
    bitsToNatLE (trace0.ivkBits.map (fun ob => ob.getD false)) < 2 ^ CAPACITY :=
  mintAsset_ivk_truncation unitGadgets ⟨none, none⟩ trace0 (by decide)

end Ironfish
